import Mathlib

/-!
Verification of the inter-core latency measurement tool (src/icl.c).

The program measures pairwise one-way signaling latency between logical
CPUs.  For every unordered pair of CPUs it spawns a responder thread,
runs `nsamples` rounds of a hand-off protocol over two shared atomic
cells, keeps the minimum elapsed time `rtt` (initialised to the sentinel
-1), and stores `rtt / 2 / 100` (C truncated division) into both mirror
entries of a square matrix.

The Lean development below is a shallow embedding of that code:
elapsed times measured by the monotonic clock are injected as an
environment `env : Nat → Int` (nanoseconds of sample `m`), matching the
fact that the clock values are data the program merely observes.  C
`long long` division truncates toward zero, which is `Int.tdiv`.
-/

namespace ICL

/-- One min-update of the sample loop, from
`if (rtt == -1 || current_rtt < rtt) { rtt = current_rtt; }`
(src/icl.c lines 215-217 and 244-246). -/
def rttStep (rtt current : Int) : Int :=
  if rtt = -1 ∨ current < rtt then current else rtt

/-- The sample loop of one pair: `long long rtt = -1;` then
`for (int m = 0; m < nsamples; ++m)` update `rtt` with the elapsed time
of sample `m` (src/icl.c lines 182, 198-248).  `nsamples` is a C `int`;
the loop body runs `max nsamples 0` times, i.e. `nsamples.toNat` times. -/
def pairRtt (env : Nat → Int) (nsamples : Int) : Int :=
  ((List.range nsamples.toNat).map env).foldl rttStep (-1)

/-- The value stored for a pair: `rtt / 2 / 100` with C truncated
division (src/icl.c lines 252-253). -/
def pairLatency (env : Nat → Int) (nsamples : Int) : Int :=
  ((pairRtt env nsamples).tdiv 2).tdiv 100

/-- The pair enumeration of the matrix builder:
`for (i = 0; i < ncpus; ++i) for (j = i + 1; j < ncpus; ++j)`
(src/icl.c lines 169-170), as the list of visited `(i, j)` in order. -/
def pairList (ncpus : Nat) : List (Nat × Nat) :=
  (List.range ncpus).flatMap
    (fun i => (List.range' (i + 1) (ncpus - (i + 1))).map (fun j => (i, j)))

/-- Storing one pair's result into the matrix:
`data[i * ncpus + j] = rtt / 2 / 100; data[j * ncpus + i] = rtt / 2 / 100;`
(src/icl.c lines 252-253).  The matrix is represented as a function of
the two indices; `env i j` is the elapsed-time environment of pair
`(i, j)`. -/
def storePair (nsamples : Int) (env : Nat → Nat → Nat → Int)
    (data : Nat → Nat → Int) (p : Nat × Nat) : Nat → Nat → Int :=
  fun a b =>
    if (a = p.1 ∧ b = p.2) ∨ (a = p.2 ∧ b = p.1) then
      pairLatency (env p.1 p.2) nsamples
    else data a b

/-- The matrix builder: `calloc` zero-initialises `data`, then each
visited pair `(i, j)` measures once and stores the result into both
mirror entries (src/icl.c lines 167-255). -/
def buildMatrix (ncpus : Nat) (env : Nat → Nat → Nat → Int)
    (nsamples : Int) : Nat → Nat → Int :=
  (pairList ncpus).foldl (storePair nsamples env) (fun _ _ => 0)

/-- Spec-side definition (for the refinement claim): the minimum elapsed
time observed across all rounds, `-1` when there are no rounds. -/
def minElapsed (env : Nat → Int) (nsamples : Int) : Int :=
  (((List.range nsamples.toNat).map env).min?).getD (-1)

/-! ### Arithmetic helper lemmas about C truncated division -/

lemma ofNat_tdiv_ofNat (m k : Nat) :
    (Int.ofNat m).tdiv (Int.ofNat k) = Int.ofNat (m / k) := rfl

lemma neg_ofNat_tdiv_ofNat (m k : Nat) :
    (-Int.ofNat m).tdiv (Int.ofNat k) = -Int.ofNat (m / k) := by
  rw [Int.neg_tdiv, ofNat_tdiv_ofNat]

/-- `r / 2 / 100 = r / 200` for C truncated division, any sign. -/
lemma tdiv_two_tdiv_hundred (r : Int) :
    (r.tdiv 2).tdiv 100 = r.tdiv 200 := by
  have h2 : (2 : Int) = Int.ofNat 2 := rfl
  have h100 : (100 : Int) = Int.ofNat 100 := rfl
  have h200 : (200 : Int) = Int.ofNat 200 := rfl
  cases r with
  | ofNat n =>
      rw [h2, h100, h200, ofNat_tdiv_ofNat, ofNat_tdiv_ofNat, ofNat_tdiv_ofNat,
        Nat.div_div_eq_div_mul]
  | negSucc n =>
      have hns : Int.negSucc n = -Int.ofNat (n + 1) := rfl
      rw [hns, h2, h100, h200, neg_ofNat_tdiv_ofNat, neg_ofNat_tdiv_ofNat,
        neg_ofNat_tdiv_ofNat, Nat.div_div_eq_div_mul]

lemma tdiv_le_tdiv_of_nonneg {a b : Int} (ha : 0 ≤ a) (hab : a ≤ b)
    {c : Int} (hc : 0 < c) : a.tdiv c ≤ b.tdiv c := by
  rw [Int.tdiv_eq_ediv ha (le_of_lt hc),
    Int.tdiv_eq_ediv (le_trans ha hab) (le_of_lt hc)]
  exact Int.ediv_le_ediv hc hab

/-! ### The sample loop computes the minimum of the observed times -/

lemma rttStep_sentinel (e : Int) : rttStep (-1) e = e := by
  rw [rttStep, if_pos (Or.inl rfl)]

lemma rttStep_eq_min {rtt : Int} (h : 0 ≤ rtt) (e : Int) :
    rttStep rtt e = min rtt e := by
  rw [rttStep, min_def]
  rcases lt_or_le e rtt with h1 | h1
  · rw [if_pos (Or.inr h1), if_neg (by omega)]
  · rw [if_neg (by omega), if_pos h1]

lemma foldl_rttStep_eq_foldl_min {l : List Int} (hl : ∀ e ∈ l, 0 ≤ e)
    {acc : Int} (hacc : 0 ≤ acc) :
    l.foldl rttStep acc = l.foldl min acc := by
  induction l generalizing acc with
  | nil => rfl
  | cons e t ih =>
      have he : 0 ≤ e := hl e (List.mem_cons_self e t)
      rw [List.foldl_cons, List.foldl_cons, rttStep_eq_min hacc]
      exact ih (fun x hx => hl x (List.mem_cons_of_mem e hx)) (le_min hacc he)

lemma foldl_min_le_init (l : List Int) (acc : Int) :
    l.foldl min acc ≤ acc := by
  induction l generalizing acc with
  | nil => exact le_refl acc
  | cons e t ih =>
      exact le_trans (ih (min acc e)) (min_le_left acc e)

lemma le_foldl_min {c : Int} {l : List Int} (hl : ∀ e ∈ l, c ≤ e)
    {acc : Int} (hacc : c ≤ acc) : c ≤ l.foldl min acc := by
  induction l generalizing acc with
  | nil => exact hacc
  | cons e t ih =>
      have he : c ≤ e := hl e (List.mem_cons_self e t)
      exact ih (fun x hx => hl x (List.mem_cons_of_mem e hx)) (le_min hacc he)

lemma range_map_nonneg {env : Nat → Int} (henv : ∀ m, 0 ≤ env m) (k : Nat) :
    ∀ e ∈ (List.range k).map env, 0 ≤ e := by
  intro e he
  rcases List.mem_map.mp he with ⟨m, _, rfl⟩
  exact henv m

/-- With at least one round and non-negative elapsed times, the `rtt`
accumulator ends up being exactly the minimum elapsed time. -/
lemma pairRtt_eq_minElapsed {env : Nat → Int} {ns : Int}
    (hns : 1 ≤ ns) (henv : ∀ m, 0 ≤ env m) :
    pairRtt env ns = minElapsed env ns := by
  have hk : ns.toNat = (ns.toNat - 1) + 1 := by omega
  rw [pairRtt, minElapsed, hk, List.range_succ_eq_map, List.map_cons]
  have hnn : ∀ e ∈ (List.map Nat.succ (List.range (ns.toNat - 1))).map env, 0 ≤ e := by
    intro e he
    rcases List.mem_map.mp he with ⟨m, _, rfl⟩
    exact henv m
  rw [List.foldl_cons, rttStep_sentinel,
    foldl_rttStep_eq_foldl_min hnn (henv 0)]
  rfl

lemma pairRtt_nonneg {env : Nat → Int} {ns : Int}
    (hns : 1 ≤ ns) (henv : ∀ m, 0 ≤ env m) : 0 ≤ pairRtt env ns := by
  have hk : ns.toNat = (ns.toNat - 1) + 1 := by omega
  rw [pairRtt, hk, List.range_succ_eq_map, List.map_cons, List.foldl_cons,
    rttStep_sentinel]
  have hnn : ∀ e ∈ (List.map Nat.succ (List.range (ns.toNat - 1))).map env, 0 ≤ e := by
    intro e he
    rcases List.mem_map.mp he with ⟨m, _, rfl⟩
    exact henv m
  rw [foldl_rttStep_eq_foldl_min hnn (henv 0)]
  exact le_foldl_min hnn (henv 0)

lemma pairLatency_nonneg {env : Nat → Int} {ns : Int}
    (hns : 1 ≤ ns) (henv : ∀ m, 0 ≤ env m) : 0 ≤ pairLatency env ns := by
  rw [pairLatency]
  exact Int.tdiv_nonneg (Int.tdiv_nonneg (pairRtt_nonneg hns henv) (by omega))
    (by omega)

/-- C1: with `nsamples ≥ 1` rounds of non-negative elapsed times, the
value the pair sampler returns (`rtt / 2 / 100` with C truncated
division) equals the minimum elapsed time divided by 200. -/
theorem pairLatency_eq_minElapsed_tdiv_200 (env : Nat → Int) (ns : Int)
    (hns : 1 ≤ ns) (henv : ∀ m, 0 ≤ env m) :
    pairLatency env ns = (minElapsed env ns).tdiv 200 := by
  rw [pairLatency, tdiv_two_tdiv_hundred, pairRtt_eq_minElapsed hns henv]

/-- Witness for C1 at a concrete environment. -/
theorem pairLatency_eq_minElapsed_tdiv_200_witness :
    pairLatency (fun _ => 401) 2 = (minElapsed (fun _ => 401) 2).tdiv 200 :=
  pairLatency_eq_minElapsed_tdiv_200 (fun _ => 401) 2 (by decide)
    (fun m => by show (0 : Int) ≤ 401; decide)

/-! ### Non-positive sample counts -/

lemma pairRtt_of_nonpos {env : Nat → Int} {ns : Int} (hns : ns ≤ 0) :
    pairRtt env ns = -1 := by
  rw [pairRtt, Int.toNat_eq_zero.mpr hns]
  rfl

lemma pairLatency_of_nonpos {env : Nat → Int} {ns : Int} (hns : ns ≤ 0) :
    pairLatency env ns = 0 := by
  rw [pairLatency, pairRtt_of_nonpos hns]
  decide

/-! ### Matrix invariants -/

lemma foldl_storePair_pointwise (P : Int → Prop) (ns : Int)
    (env : Nat → Nat → Nat → Int) (l : List (Nat × Nat))
    (hval : ∀ p ∈ l, P (pairLatency (env p.1 p.2) ns)) :
    ∀ data : Nat → Nat → Int, (∀ a b, P (data a b)) →
      ∀ a b, P ((l.foldl (storePair ns env) data) a b) := by
  induction l with
  | nil => intro data hdata a b; exact hdata a b
  | cons p t ih =>
      intro data hdata a b
      rw [List.foldl_cons]
      refine ih (fun q hq => hval q (List.mem_cons_of_mem p hq)) _ ?_ a b
      intro a' b'
      rw [storePair]
      by_cases hc : (a' = p.1 ∧ b' = p.2) ∨ (a' = p.2 ∧ b' = p.1)
      · rw [if_pos hc]; exact hval p (List.mem_cons_self p t)
      · rw [if_neg hc]; exact hdata a' b'

lemma storePair_symm (ns : Int) (env : Nat → Nat → Nat → Int)
    (data : Nat → Nat → Int) (p : Nat × Nat)
    (hdata : ∀ a b, data a b = data b a) :
    ∀ a b, storePair ns env data p a b = storePair ns env data p b a := by
  intro a b
  rw [storePair, storePair]
  by_cases hc : (a = p.1 ∧ b = p.2) ∨ (a = p.2 ∧ b = p.1)
  · rw [if_pos hc, if_pos (Or.symm (hc.imp And.symm And.symm))]
  · rw [if_neg hc, if_neg (fun hc' => hc (Or.symm (hc'.imp And.symm And.symm))),
      hdata a b]

lemma buildMatrix_symm (ncpus : Nat) (env : Nat → Nat → Nat → Int)
    (ns : Int) : ∀ a b, buildMatrix ncpus env ns a b = buildMatrix ncpus env ns b a := by
  rw [buildMatrix]
  generalize pairList ncpus = l
  have : ∀ (l : List (Nat × Nat)) (data : Nat → Nat → Int),
      (∀ a b, data a b = data b a) →
      ∀ a b, (l.foldl (storePair ns env) data) a b
        = (l.foldl (storePair ns env) data) b a := by
    intro l
    induction l with
    | nil => intro data hdata a b; exact hdata a b
    | cons p t ih =>
        intro data hdata a b
        rw [List.foldl_cons]
        exact ih _ (storePair_symm ns env data p hdata) a b
  exact this l _ (fun a b => rfl)

/-- C2: the final latency matrix is symmetric on every pair of distinct
measured CPU positions, because each pair's single value is written into
both mirror entries. -/
theorem buildMatrix_symmetric (ncpus : Nat) (env : Nat → Nat → Nat → Int)
    (ns : Int) (i j : Nat) (hi : i < ncpus) (hj : j < ncpus) (hij : i ≠ j) :
    buildMatrix ncpus env ns i j = buildMatrix ncpus env ns j i :=
  buildMatrix_symm ncpus env ns i j

/-- Witness for C2 on a concrete 2-CPU run. -/
theorem buildMatrix_symmetric_witness :
    buildMatrix 2 (fun _ _ _ => 400) 1 0 1 = buildMatrix 2 (fun _ _ _ => 400) 1 1 0 :=
  buildMatrix_symmetric 2 (fun _ _ _ => 400) 1 0 1 (by decide) (by decide)
    (by decide)

/-- C10: if the pair sampler runs with `nsamples ≤ 0` (bypassing the
collaborator's validation), no loop iteration runs, the minimum stays at
the sentinel `-1`, and the value stored in the matrix entries is
`(-1) / 2 / 100 = 0` in C truncated division — never `-1`. -/
theorem nonpos_nsamples_stores_zero (env : Nat → Int)
    (envm : Nat → Nat → Nat → Int) (ncpus : Nat) (ns : Int) (hns : ns ≤ 0) :
    pairRtt env ns = -1 ∧ pairLatency env ns = 0 ∧ pairLatency env ns ≠ -1 ∧
      ∀ a b, buildMatrix ncpus envm ns a b = 0 := by
  refine ⟨pairRtt_of_nonpos hns, pairLatency_of_nonpos hns, ?_, ?_⟩
  · rw [pairLatency_of_nonpos hns]; decide
  · rw [buildMatrix]
    exact foldl_storePair_pointwise (fun v => v = 0) ns envm (pairList ncpus)
      (fun p _ => pairLatency_of_nonpos hns) _ (fun a b => rfl)

/-- Witness for C10 at `nsamples = -3`. -/
theorem nonpos_nsamples_stores_zero_witness :
    pairRtt (fun _ => 400) (-3) = -1 ∧
      pairLatency (fun _ => 400) (-3) = 0 ∧
      pairLatency (fun _ => 400) (-3) ≠ -1 ∧
      ∀ a b, buildMatrix 2 (fun _ _ _ => 400) (-3) a b = 0 :=
  nonpos_nsamples_stores_zero (fun _ => 400) (fun _ _ _ => 400) 2 (-3)
    (by decide)

/-- C4: with a positive sample count and non-negative observed elapsed
times, every final matrix entry is non-negative and the sentinel `-1`
never appears. -/
theorem buildMatrix_entries_nonneg (ncpus : Nat)
    (env : Nat → Nat → Nat → Int) (ns : Int) (hns : 1 ≤ ns)
    (henv : ∀ i j m, 0 ≤ env i j m) :
    ∀ a b, 0 ≤ buildMatrix ncpus env ns a b ∧
      buildMatrix ncpus env ns a b ≠ -1 := by
  have h : ∀ a b, 0 ≤ buildMatrix ncpus env ns a b := by
    rw [buildMatrix]
    exact foldl_storePair_pointwise (fun v => 0 ≤ v) ns env (pairList ncpus)
      (fun p _ => pairLatency_nonneg hns (henv p.1 p.2)) _
      (fun a b => le_refl 0)
  exact fun a b => ⟨h a b, by have := h a b; omega⟩

/-- Witness for C4 on a concrete 2-CPU run. -/
theorem buildMatrix_entries_nonneg_witness :
    0 ≤ buildMatrix 2 (fun _ _ _ => 400) 1 0 1 ∧
      buildMatrix 2 (fun _ _ _ => 400) 1 0 1 ≠ -1 :=
  buildMatrix_entries_nonneg 2 (fun _ _ _ => 400) 1 (by decide)
    (fun i j m => by show (0 : Int) ≤ 400; decide) 0 1

/-! ### Monotonicity of the min-reduction in the sample count -/

lemma pairRtt_antitone {env : Nat → Int} {ns₁ ns₂ : Int}
    (h1 : 1 ≤ ns₁) (h12 : ns₁ ≤ ns₂) (henv : ∀ m, 0 ≤ env m) :
    pairRtt env ns₂ ≤ pairRtt env ns₁ := by
  have hacc : 0 ≤ ((List.range ns₁.toNat).map env).foldl rttStep (-1) :=
    pairRtt_nonneg h1 henv
  have hk : ns₂.toNat = ns₁.toNat + (ns₂.toNat - ns₁.toNat) := by omega
  rw [pairRtt, hk, List.range_add, List.map_append, List.foldl_append]
  have hl2 : ∀ e ∈ ((List.range (ns₂.toNat - ns₁.toNat)).map
      (fun x => ns₁.toNat + x)).map env, 0 ≤ e := by
    intro e he
    rcases List.mem_map.mp he with ⟨m, _, rfl⟩
    exact henv m
  rw [foldl_rttStep_eq_foldl_min hl2 hacc]
  exact foldl_min_le_init _ _

/-- C5: for a fixed deterministic sequence of per-sample elapsed times
(all non-negative), the reported latency is monotonically non-increasing
in the sample count: more samples never yield a larger value. -/
theorem pairLatency_antitone_in_nsamples (env : Nat → Int) (ns₁ ns₂ : Int)
    (h1 : 1 ≤ ns₁) (h12 : ns₁ ≤ ns₂) (henv : ∀ m, 0 ≤ env m) :
    pairLatency env ns₂ ≤ pairLatency env ns₁ := by
  have h2 : 0 ≤ pairRtt env ns₂ := pairRtt_nonneg (le_trans h1 h12) henv
  have hle : pairRtt env ns₂ ≤ pairRtt env ns₁ := pairRtt_antitone h1 h12 henv
  rw [pairLatency, pairLatency]
  exact tdiv_le_tdiv_of_nonneg
    (Int.tdiv_nonneg h2 (by omega))
    (tdiv_le_tdiv_of_nonneg h2 hle (by omega)) (by omega)

/-- Witness for C5: 1 sample vs 3 samples of a decreasing sequence. -/
theorem pairLatency_antitone_in_nsamples_witness :
    pairLatency (fun m => if m = 0 then 1000 else 400) 3 ≤
      pairLatency (fun m => if m = 0 then 1000 else 400) 1 :=
  pairLatency_antitone_in_nsamples (fun m => if m = 0 then 1000 else 400) 1 3
    (by decide) (by decide)
    (fun m => by
      show (0 : Int) ≤ if m = 0 then 1000 else 400
      split <;> decide)

/-! ### The pair enumeration -/

lemma mem_pairList {n : Nat} {p : Nat × Nat} :
    p ∈ pairList n ↔ p.1 < p.2 ∧ p.2 < n := by
  obtain ⟨a, b⟩ := p
  rw [pairList, List.mem_flatMap]
  constructor
  · rintro ⟨i, hi, hp⟩
    rcases List.mem_map.mp hp with ⟨j, hj, hje⟩
    rw [List.mem_range'_1] at hj
    rw [List.mem_range] at hi
    obtain ⟨rfl, rfl⟩ := Prod.ext_iff.mp hje.symm
    exact ⟨by omega, by omega⟩
  · rintro ⟨h1, h2⟩
    refine ⟨a, List.mem_range.mpr (by omega), List.mem_map.mpr ⟨b, ?_, rfl⟩⟩
    rw [List.mem_range'_1]
    omega

lemma pairList_nodup (n : Nat) : (pairList n).Nodup := by
  rw [pairList, List.nodup_flatMap]
  constructor
  · intro i _
    exact List.Nodup.map (fun a b h => (Prod.ext_iff.mp h).2)
      (List.nodup_range' _ _)
  · refine (List.pairwise_lt_range n).imp ?_
    intro i i' hii' x hx hx'
    rcases List.mem_map.mp hx with ⟨j, _, rfl⟩
    rcases List.mem_map.mp hx' with ⟨j', _, hj'⟩
    exact absurd (Prod.ext_iff.mp hj'.symm).1 (by omega)

lemma sum_map_range (g : Nat → Nat) (n : Nat) :
    ((List.range n).map g).sum = ∑ i ∈ Finset.range n, g i := by
  induction n with
  | zero => rfl
  | succ k ih =>
      rw [List.range_succ, List.map_append, List.sum_append,
        Finset.sum_range_succ, ih]
      rfl

lemma length_pairList (n : Nat) : (pairList n).length = n * (n - 1) / 2 := by
  rw [pairList, List.length_flatMap]
  have h1 : List.map
      (List.length ∘ fun i => (List.range' (i + 1) (n - (i + 1))).map (fun j => (i, j)))
      (List.range n) = (List.range n).map (fun i => n - 1 - i) := by
    refine List.map_congr_left ?_
    intro i _
    show ((List.range' (i + 1) (n - (i + 1))).map (fun j => (i, j))).length = n - 1 - i
    rw [List.length_map, List.length_range']
    omega
  rw [h1, sum_map_range, Finset.sum_range_reflect (fun i => i) n,
    Finset.sum_range_id]

lemma countP_eq_one_of_nodup {α : Type} [DecidableEq α] {l : List α}
    (hn : l.Nodup) {p : α} (hp : p ∈ l) :
    l.countP (fun q => decide (q = p)) = 1 := by
  induction l with
  | nil => cases hp
  | cons a t ih =>
      rw [List.countP_cons]
      rcases List.mem_cons.mp hp with rfl | hpt
      · have hnt : p ∉ t := (List.nodup_cons.mp hn).1
        rw [List.countP_eq_zero.mpr (fun q hq => by
          simp only [decide_eq_true_eq]
          intro he
          exact hnt (he ▸ hq))]
        simp
      · have ha : a ≠ p := by
          intro he
          exact (List.nodup_cons.mp hn).1 (he ▸ hpt)
        rw [ih (List.nodup_cons.mp hn).2 hpt]
        simp [ha]

lemma foldl_storePair_diag (ns : Int) (env : Nat → Nat → Nat → Int)
    (l : List (Nat × Nat)) (hl : ∀ p ∈ l, p.1 ≠ p.2) :
    ∀ data : Nat → Nat → Int, (∀ a, data a a = 0) →
      ∀ a, (l.foldl (storePair ns env) data) a a = 0 := by
  induction l with
  | nil => intro data hdata a; exact hdata a
  | cons p t ih =>
      intro data hdata a
      rw [List.foldl_cons]
      refine ih (fun q hq => hl q (List.mem_cons_of_mem p hq)) _ ?_ a
      intro a'
      rw [storePair, if_neg]
      · exact hdata a'
      · rintro (⟨h1, h2⟩ | ⟨h1, h2⟩) <;>
          exact hl p (List.mem_cons_self p t) (by omega)

lemma buildMatrix_diag_zero (ncpus : Nat) (env : Nat → Nat → Nat → Int)
    (ns : Int) : ∀ i, buildMatrix ncpus env ns i i = 0 := by
  rw [buildMatrix]
  exact foldl_storePair_diag ns env (pairList ncpus)
    (fun p hp => Nat.ne_of_lt (mem_pairList.mp hp).1) _ (fun a => rfl)

/-- C3: the matrix builder visits exactly the unordered pairs `{i, j}`
with `i < j < n`, each exactly once — `n * (n - 1) / 2` sampler
invocations in total — never a self-pair, and every diagonal entry of
the built matrix stays at its initial value 0. -/
theorem pair_enumeration (n : Nat) :
    (pairList n).length = n * (n - 1) / 2 ∧
      (∀ p : Nat × Nat, p ∈ pairList n ↔ p.1 < p.2 ∧ p.2 < n) ∧
      (∀ p ∈ pairList n, (pairList n).countP (fun q => decide (q = p)) = 1) ∧
      (∀ i, (i, i) ∉ pairList n) ∧
      (∀ env ns i, buildMatrix n env ns i i = 0) :=
  ⟨length_pairList n, fun _ => mem_pairList,
    fun _ hp => countP_eq_one_of_nodup (pairList_nodup n) hp,
    fun i hi => absurd (mem_pairList.mp hi).1 (lt_irrefl i),
    fun env ns i => buildMatrix_diag_zero n env ns i⟩

/-! ### Affinity pinning failure (C8) -/

/-- The reported failure of an affinity-pinning call: which operation
failed and the process exit status. -/
structure PinFailure where
  op : String
  exitStatus : Nat
deriving DecidableEq

/-- `pinThread` (src/icl.c lines 39-48): `sched_setaffinity` returning
`-1` triggers `perror("sched_setaffinity")` followed by `exit(1)`;
otherwise the thread is pinned and execution continues.  `ret` is the
return value of the underlying `sched_setaffinity` call. -/
def pinThread (ret : Int) : Except PinFailure Unit :=
  if ret = -1 then Except.error ⟨"sched_setaffinity", 1⟩ else Except.ok ()

/-- One pair's measurement as seen from the calling context: pin the
initiator (src/icl.c line 184), then sample.  A pin failure terminates
the process, so no latency value is produced. -/
def measurePair (pinRet : Int) (env : Nat → Int) (ns : Int) :
    Except PinFailure Int :=
  match pinThread pinRet with
  | Except.error e => Except.error e
  | Except.ok _ => Except.ok (pairLatency env ns)

/-- C8: whenever the underlying affinity call rejects the request
(returns -1), the program reports the failed operation
(`sched_setaffinity`) and terminates with a non-zero exit status; the
measurement produces no latency value (no partial result, no retry). -/
theorem pin_failure_is_fatal (ret : Int) (env : Nat → Int) (ns : Int)
    (h : ret = -1) :
    pinThread ret = Except.error ⟨"sched_setaffinity", 1⟩ ∧
      (∀ f, pinThread ret = Except.error f →
        f.op = "sched_setaffinity" ∧ f.exitStatus ≠ 0) ∧
      measurePair ret env ns = Except.error ⟨"sched_setaffinity", 1⟩ := by
  subst h
  have hp : pinThread (-1) = Except.error ⟨"sched_setaffinity", 1⟩ := by
    rw [pinThread, if_pos rfl]
  refine ⟨hp, ?_, ?_⟩
  · intro f hf
    rw [hp] at hf
    cases hf
    exact ⟨rfl, by decide⟩
  · rw [measurePair, hp]

/-- Witness for C8 at `ret = -1`. -/
theorem pin_failure_is_fatal_witness :
    pinThread (-1) = Except.error ⟨"sched_setaffinity", 1⟩ ∧
      (∀ f, pinThread (-1) = Except.error f →
        f.op = "sched_setaffinity" ∧ f.exitStatus ≠ 0) ∧
      measurePair (-1) (fun _ => 400) 1 = Except.error ⟨"sched_setaffinity", 1⟩ :=
  pin_failure_is_fatal (-1) (fun _ => 400) 1 rfl

/-! ### Warm-up (C9) -/

/-- Exit condition of poll `k` of the busy-wait warm-up loop
(src/icl.c lines 58-68 and 185-196): the monotonic clock read at poll
`k` is at least 200000000 ns past the clock read when the loop
started. -/
def warmupDone (clock : Nat → Int) (k : Nat) : Prop :=
  200000000 ≤ clock k - clock 0

instance warmupDoneDecidable (clock : Nat → Int) :
    DecidablePred (warmupDone clock) :=
  fun k => inferInstanceAs (Decidable (200000000 ≤ clock k - clock 0))

/-- The poll at which the warm-up loop `break`s: the first poll whose
elapsed time reaches 200 ms.  Termination needs some poll to satisfy the
condition (the clock is monotonic and unbounded on real hardware). -/
def warmupExitPoll (clock : Nat → Int) (h : ∃ k, warmupDone clock k) : Nat :=
  Nat.find h

/-- Per-context activity markers for one pair's measurement. -/
inductive Event where
  | pin : Event
  | warmupEv : Event
  | sampleStart : Nat → Event
  | sampleEnd : Nat → Event
deriving DecidableEq

/-- The timed samples of one context, in program order
(src/icl.c lines 70-92 and 198-248). -/
def sampleEvents (nsamples : Int) : List Event :=
  (List.range nsamples.toNat).flatMap
    (fun m => [Event.sampleStart m, Event.sampleEnd m])

/-- One context's activity for one pair, in program order: pin, then the
warm-up iff `preheat` is set, then the timed samples.  Both the spawned
responder (src/icl.c lines 53-94) and the calling initiator
(lines 184-248) have exactly this shape. -/
def contextTrace (preheat : Bool) (nsamples : Int) : List Event :=
  [Event.pin] ++ (if preheat then [Event.warmupEv] else [])
    ++ sampleEvents nsamples

lemma warmupEv_not_in_sampleEvents (ns : Int) :
    Event.warmupEv ∉ sampleEvents ns := by
  intro h
  rw [sampleEvents, List.mem_flatMap] at h
  rcases h with ⟨m, _, hm⟩
  rcases List.mem_cons.mp hm with h1 | h1
  · cases h1
  · rcases List.mem_cons.mp h1 with h2 | h2
    · cases h2
    · cases h2

/-- C9: with warm-up enabled each context warms up exactly once, after
pinning and strictly before every timed sample (so never inside a timed
window); with warm-up disabled it never warms up; and the warm-up loop
only exits at the first poll at which at least 200 ms (200000000 ns) of
monotonic time have elapsed since it started polling. -/
theorem warmup_placement_and_duration (ns : Int) (clock : Nat → Int)
    (h : ∃ k, warmupDone clock k) :
    contextTrace true ns = Event.pin :: Event.warmupEv :: sampleEvents ns ∧
      contextTrace false ns = Event.pin :: sampleEvents ns ∧
      Event.warmupEv ∉ sampleEvents ns ∧
      200000000 ≤ clock (warmupExitPoll clock h) - clock 0 ∧
      (∀ k < warmupExitPoll clock h, ¬ warmupDone clock k) := by
  refine ⟨rfl, rfl, warmupEv_not_in_sampleEvents ns, Nat.find_spec h, ?_⟩
  intro k hk
  exact Nat.find_min h hk

/-- Witness for C9 with a concrete monotonic clock. -/
theorem warmup_placement_and_duration_witness :
    contextTrace true 2 = Event.pin :: Event.warmupEv :: sampleEvents 2 ∧
      contextTrace false 2 = Event.pin :: sampleEvents 2 ∧
      Event.warmupEv ∉ sampleEvents 2 ∧
      200000000 ≤ (fun k => 150000000 * (k : Int)) (warmupExitPoll
        (fun k => 150000000 * (k : Int)) ⟨2, by decide⟩) -
        (fun k => 150000000 * (k : Int)) 0 ∧
      (∀ k < warmupExitPoll (fun k => 150000000 * (k : Int)) ⟨2, by decide⟩,
        ¬ warmupDone (fun k => 150000000 * (k : Int)) k) :=
  warmup_placement_and_duration 2 (fun k => 150000000 * (k : Int))
    ⟨2, by decide⟩

/-! ### The flag-exchange protocol as a two-context step relation (C7)

One sample of the default protocol.  The shared cells are reset to the
sentinel -1 before the sample starts (src/icl.c lines 199-200).  The
initiator (lines 203-210) runs, for `n = 0..99`: store `n` into `seq1`
(release), then spin-load `seq2` (acquire) until it equals `n`.  The
responder (lines 72-78) runs, for `n = 0..99`: spin-load `seq1`
(acquire) until it equals `n`, then store `n` into `seq2` (release).
Spin iterations whose exit test fails do not change the state and are
omitted (stutter steps). -/

/-- Initiator program counter: `.store n` is about to store `n` into
`seq1`; `.wait n` spins until `seq2 = n`; `.done` after all 100 steps. -/
inductive FlagIPC where
  | store : Nat → FlagIPC
  | wait : Nat → FlagIPC
  | done : FlagIPC
deriving DecidableEq

/-- Responder program counter: `.wait n` spins until `seq1 = n`;
`.store n` is about to store `n` into `seq2`; `.done` after 100 steps. -/
inductive FlagRPC where
  | wait : Nat → FlagRPC
  | store : Nat → FlagRPC
  | done : FlagRPC
deriving DecidableEq

structure FlagState where
  seq1 : Int
  seq2 : Int
  ipc : FlagIPC
  rpc : FlagRPC
deriving DecidableEq

/-- State at the start of a sample: both cells hold the sentinel, both
loops are at step 0. -/
def flagInit : FlagState :=
  ⟨-1, -1, FlagIPC.store 0, FlagRPC.wait 0⟩

/-- One effective transition of the flag-exchange protocol. -/
inductive FlagStep : FlagState → FlagState → Prop where
  | iStore (s : FlagState) (n : Nat) (hpc : s.ipc = FlagIPC.store n)
      (hn : n < 100) :
      FlagStep s { s with seq1 := (n : Int), ipc := FlagIPC.wait n }
  | iWaitExit (s : FlagState) (n : Nat) (hpc : s.ipc = FlagIPC.wait n)
      (hexit : s.seq2 = (n : Int)) :
      FlagStep s { s with
        ipc := (if n + 1 < 100 then FlagIPC.store (n + 1) else FlagIPC.done) }
  | rWaitExit (s : FlagState) (n : Nat) (hpc : s.rpc = FlagRPC.wait n)
      (hn : n < 100) (hexit : s.seq1 = (n : Int)) :
      FlagStep s { s with rpc := FlagRPC.store n }
  | rStore (s : FlagState) (n : Nat) (hpc : s.rpc = FlagRPC.store n) :
      FlagStep s { s with seq2 := (n : Int), rpc := (if n + 1 < 100 then FlagRPC.wait (n + 1) else FlagRPC.done) }

/-- States reachable from the start of a sample. -/
inductive FlagReachable : FlagState → Prop where
  | init : FlagReachable flagInit
  | step {s t : FlagState} :
      FlagReachable s → FlagStep s t → FlagReachable t

/-- Number of stores to `seq1` the initiator has performed; its `k`-th
store (k = 1..100) writes the value `k - 1`. -/
def iStores : FlagIPC → Nat
  | FlagIPC.store n => n
  | FlagIPC.wait n => n + 1
  | FlagIPC.done => 100

/-- Number of stores to `seq2` the responder has performed; its `k`-th
store writes the value `k - 1`. -/
def rStores : FlagRPC → Nat
  | FlagRPC.wait n => n
  | FlagRPC.store n => n
  | FlagRPC.done => 100

def iBound : FlagIPC → Prop
  | FlagIPC.store n => n ≤ 99
  | FlagIPC.wait n => n ≤ 99
  | FlagIPC.done => True

def rBound : FlagRPC → Prop
  | FlagRPC.wait n => n ≤ 99
  | FlagRPC.store n => n ≤ 99
  | FlagRPC.done => True

/-- Each cell always holds exactly the last value its producing side
stored (`-1` before the first store): the cells are single-writer. -/
def flagInv (s : FlagState) : Prop :=
  s.seq1 = (iStores s.ipc : Int) - 1 ∧ s.seq2 = (rStores s.rpc : Int) - 1 ∧
    iBound s.ipc ∧ rBound s.rpc

lemma flagInit_inv : flagInv flagInit := by
  refine ⟨?_, ?_, ?_, ?_⟩ <;> simp [flagInit, iStores, rStores, iBound, rBound]

lemma flagStep_inv {s t : FlagState} (hs : flagInv s) (hst : FlagStep s t) :
    flagInv t := by
  obtain ⟨h1, h2, h3, h4⟩ := hs
  cases hst with
  | iStore n hpc hn =>
      refine ⟨?_, h2, ?_, h4⟩
      · show (n : Int) = ((iStores (FlagIPC.wait n) : Nat) : Int) - 1
        simp [iStores]
      · show n ≤ 99
        omega
  | iWaitExit n hpc hexit =>
      rw [hpc] at h1 h3
      replace h3 : n ≤ 99 := h3
      replace h1 : s.seq1 = (n : Int) := by
        simp only [iStores] at h1
        omega
      refine ⟨?_, h2, ?_, h4⟩
      · show s.seq1 = ((iStores (if n + 1 < 100 then FlagIPC.store (n + 1)
          else FlagIPC.done) : Nat) : Int) - 1
        by_cases hif : n + 1 < 100
        · rw [if_pos hif]
          simp only [iStores]
          omega
        · rw [if_neg hif]
          simp only [iStores]
          omega
      · show iBound (if n + 1 < 100 then FlagIPC.store (n + 1) else FlagIPC.done)
        by_cases hif : n + 1 < 100
        · rw [if_pos hif]
          show n + 1 ≤ 99
          omega
        · rw [if_neg hif]
          trivial
  | rWaitExit n hpc hn hexit =>
      rw [hpc] at h2
      refine ⟨h1, ?_, h3, ?_⟩
      · show s.seq2 = ((rStores (FlagRPC.store n) : Nat) : Int) - 1
        simp only [rStores] at h2 ⊢
        exact h2
      · show n ≤ 99
        omega
  | rStore n hpc =>
      rw [hpc] at h4
      replace h4 : n ≤ 99 := h4
      refine ⟨h1, ?_, h3, ?_⟩
      · show (n : Int) = ((rStores (if n + 1 < 100 then FlagRPC.wait (n + 1)
          else FlagRPC.done) : Nat) : Int) - 1
        by_cases hif : n + 1 < 100
        · rw [if_pos hif]
          simp only [rStores]
          omega
        · rw [if_neg hif]
          simp only [rStores]
          omega
      · show rBound (if n + 1 < 100 then FlagRPC.wait (n + 1) else FlagRPC.done)
        by_cases hif : n + 1 < 100
        · rw [if_pos hif]
          show n + 1 ≤ 99
          omega
        · rw [if_neg hif]
          trivial

lemma flagReachable_inv {s : FlagState} (hr : FlagReachable s) : flagInv s := by
  induction hr with
  | init => exact flagInit_inv
  | step _ hst ih => exact flagStep_inv ih hst

/-- In every reachable flag-exchange state, a spin-wait's exit condition
being true means the peer has already performed the store of the awaited
value (its `(n+1)`-th store, which wrote `n`). -/
lemma flag_spins_need_peer {s : FlagState} (hr : FlagReachable s) :
    (∀ n : Nat, s.rpc = FlagRPC.wait n → s.seq1 = (n : Int) →
      n < iStores s.ipc) ∧
    (∀ n : Nat, s.ipc = FlagIPC.wait n → s.seq2 = (n : Int) →
      n < rStores s.rpc) := by
  obtain ⟨h1, h2, _, _⟩ := flagReachable_inv hr
  constructor
  · intro n _ hA
    rw [hA] at h1
    omega
  · intro n _ hB
    rw [hB] at h2
    omega

/-! ### The compare-and-exchange protocol as a step relation (C6)

One sample of the `-w` protocol.  Cells reset to -1
(src/icl.c lines 199-200).  Initiator (lines 220-239): store 0 into
`seq2`; spin while `seq2 == 0`; store -1 into `seq2`; then for
`n = 0..99` retry `CAS(seq1, 2n-1 -> 2n)` until success; finally spin
until `seq1 == 199`.  Responder (lines 80-90): spin while `seq2 != 0`;
store 1 into `seq2`; then for `n = 0..99` retry `CAS(seq1, 2n -> 2n+1)`
with the expected value reloaded to `2n` before each attempt.  Failed
spins that do not exit are omitted (stutters); failed CAS attempts are
kept as explicit no-op steps. -/

/-- Initiator program counter for the CAS protocol. -/
inductive CasIPC where
  | storeB0 : CasIPC
  | waitB : CasIPC
  | storeBneg : CasIPC
  | cas : Nat → CasIPC
  | waitFinal : CasIPC
  | done : CasIPC
deriving DecidableEq

/-- Responder program counter for the CAS protocol. -/
inductive CasRPC where
  | waitB : CasRPC
  | storeB1 : CasRPC
  | cas : Nat → CasRPC
  | done : CasRPC
deriving DecidableEq

structure CasState where
  seq1 : Int
  seq2 : Int
  ipc : CasIPC
  rpc : CasRPC
deriving DecidableEq

def casInit : CasState := ⟨-1, -1, CasIPC.storeB0, CasRPC.waitB⟩

/-- One transition of the CAS protocol (including failed CAS attempts,
which change nothing). -/
inductive CasStep : CasState → CasState → Prop where
  | iStoreB0 (s : CasState) (hpc : s.ipc = CasIPC.storeB0) :
      CasStep s { s with seq2 := 0, ipc := CasIPC.waitB }
  | iWaitBExit (s : CasState) (hpc : s.ipc = CasIPC.waitB)
      (hexit : s.seq2 ≠ 0) :
      CasStep s { s with ipc := CasIPC.storeBneg }
  | iStoreBneg (s : CasState) (hpc : s.ipc = CasIPC.storeBneg) :
      CasStep s { s with seq2 := -1, ipc := CasIPC.cas 0 }
  | iCas (s : CasState) (n : Nat) (hpc : s.ipc = CasIPC.cas n)
      (hn : n < 100) (hsucc : s.seq1 = 2 * (n : Int) - 1) :
      CasStep s { s with seq1 := 2 * (n : Int), ipc := (if n + 1 < 100 then CasIPC.cas (n + 1) else CasIPC.waitFinal) }
  | iCasFail (s : CasState) (n : Nat) (hpc : s.ipc = CasIPC.cas n)
      (hn : n < 100) (hfail : s.seq1 ≠ 2 * (n : Int) - 1) :
      CasStep s s
  | iWaitFinalExit (s : CasState) (hpc : s.ipc = CasIPC.waitFinal)
      (hexit : s.seq1 = 199) :
      CasStep s { s with ipc := CasIPC.done }
  | rWaitBExit (s : CasState) (hpc : s.rpc = CasRPC.waitB)
      (hexit : s.seq2 = 0) :
      CasStep s { s with rpc := CasRPC.storeB1 }
  | rStoreB1 (s : CasState) (hpc : s.rpc = CasRPC.storeB1) :
      CasStep s { s with seq2 := 1, rpc := CasRPC.cas 0 }
  | rCas (s : CasState) (n : Nat) (hpc : s.rpc = CasRPC.cas n)
      (hn : n < 100) (hsucc : s.seq1 = 2 * (n : Int)) :
      CasStep s { s with seq1 := 2 * (n : Int) + 1, rpc := (if n + 1 < 100 then CasRPC.cas (n + 1) else CasRPC.done) }
  | rCasFail (s : CasState) (n : Nat) (hpc : s.rpc = CasRPC.cas n)
      (hn : n < 100) (hfail : s.seq1 ≠ 2 * (n : Int)) :
      CasStep s s

inductive CasReachable : CasState → Prop where
  | init : CasReachable casInit
  | step {s t : CasState} : CasReachable s → CasStep s t → CasReachable t

/-- The reachable configurations of the CAS protocol: the barrier phases
in order, then the alternating CAS phase where the single shared counter
`seq1` equals (initiator successes) + (responder successes) - 1 and the
two success counters never drift apart by more than one. -/
def casInv (s : CasState) : Prop :=
  (s.ipc = CasIPC.storeB0 ∧ s.rpc = CasRPC.waitB ∧ s.seq1 = -1 ∧ s.seq2 = -1) ∨
  (s.ipc = CasIPC.waitB ∧ s.rpc = CasRPC.waitB ∧ s.seq1 = -1 ∧ s.seq2 = 0) ∨
  (s.ipc = CasIPC.waitB ∧ s.rpc = CasRPC.storeB1 ∧ s.seq1 = -1 ∧ s.seq2 = 0) ∨
  (s.ipc = CasIPC.waitB ∧ s.rpc = CasRPC.cas 0 ∧ s.seq1 = -1 ∧ s.seq2 = 1) ∨
  (s.ipc = CasIPC.storeBneg ∧ s.rpc = CasRPC.cas 0 ∧ s.seq1 = -1 ∧ s.seq2 = 1) ∨
  (∃ m r : Nat, s.ipc = CasIPC.cas m ∧ s.rpc = CasRPC.cas r ∧ m ≤ 99 ∧
    r ≤ 99 ∧ r ≤ m ∧ m ≤ r + 1 ∧ s.seq1 = (m : Int) + (r : Int) - 1 ∧
    s.seq2 = -1) ∨
  (s.ipc = CasIPC.waitFinal ∧ s.rpc = CasRPC.cas 99 ∧ s.seq1 = 198 ∧ s.seq2 = -1) ∨
  (s.ipc = CasIPC.waitFinal ∧ s.rpc = CasRPC.done ∧ s.seq1 = 199 ∧ s.seq2 = -1) ∨
  (s.ipc = CasIPC.done ∧ s.rpc = CasRPC.done ∧ s.seq1 = 199 ∧ s.seq2 = -1)

lemma casInit_inv : casInv casInit :=
  Or.inl ⟨rfl, rfl, rfl, rfl⟩

lemma casStep_inv {s t : CasState} (hs : casInv s) (hst : CasStep s t) :
    casInv t := by
  cases hst with
  | iStoreB0 hpc =>
      rcases hs with ⟨e1, e2, eA, eB⟩ | ⟨e1, e2, eA, eB⟩ | ⟨e1, e2, eA, eB⟩ |
        ⟨e1, e2, eA, eB⟩ | ⟨e1, e2, eA, eB⟩ | ⟨m, r, e1, e2, hm, hr, hrm, hmr, eA, eB⟩ |
        ⟨e1, e2, eA, eB⟩ | ⟨e1, e2, eA, eB⟩ | ⟨e1, e2, eA, eB⟩ <;>
        rw [e1] at hpc <;> cases hpc
      exact Or.inr (Or.inl ⟨rfl, e2, eA, rfl⟩)
  | iWaitBExit hpc hexit =>
      rcases hs with ⟨e1, e2, eA, eB⟩ | ⟨e1, e2, eA, eB⟩ | ⟨e1, e2, eA, eB⟩ |
        ⟨e1, e2, eA, eB⟩ | ⟨e1, e2, eA, eB⟩ | ⟨m, r, e1, e2, hm, hr, hrm, hmr, eA, eB⟩ |
        ⟨e1, e2, eA, eB⟩ | ⟨e1, e2, eA, eB⟩ | ⟨e1, e2, eA, eB⟩ <;>
        rw [e1] at hpc <;> cases hpc
      · exact absurd eB hexit
      · exact absurd eB hexit
      · exact Or.inr (Or.inr (Or.inr (Or.inr (Or.inl ⟨rfl, e2, eA, eB⟩))))
  | iStoreBneg hpc =>
      rcases hs with ⟨e1, e2, eA, eB⟩ | ⟨e1, e2, eA, eB⟩ | ⟨e1, e2, eA, eB⟩ |
        ⟨e1, e2, eA, eB⟩ | ⟨e1, e2, eA, eB⟩ | ⟨m, r, e1, e2, hm, hr, hrm, hmr, eA, eB⟩ |
        ⟨e1, e2, eA, eB⟩ | ⟨e1, e2, eA, eB⟩ | ⟨e1, e2, eA, eB⟩ <;>
        rw [e1] at hpc <;> cases hpc
      refine Or.inr (Or.inr (Or.inr (Or.inr (Or.inr (Or.inl
        ⟨0, 0, rfl, e2, ?_, ?_, ?_, ?_, ?_, rfl⟩)))))
      · omega
      · omega
      · omega
      · omega
      · show s.seq1 = ((0 : Nat) : Int) + ((0 : Nat) : Int) - 1
        omega
  | iCas n hpc hn hsucc =>
      rcases hs with ⟨e1, e2, eA, eB⟩ | ⟨e1, e2, eA, eB⟩ | ⟨e1, e2, eA, eB⟩ |
        ⟨e1, e2, eA, eB⟩ | ⟨e1, e2, eA, eB⟩ | ⟨m, r, e1, e2, hm, hr, hrm, hmr, eA, eB⟩ |
        ⟨e1, e2, eA, eB⟩ | ⟨e1, e2, eA, eB⟩ | ⟨e1, e2, eA, eB⟩ <;>
        rw [e1] at hpc <;> cases hpc
      have hreq : r = n := by omega
      by_cases hif : n + 1 < 100
      · refine Or.inr (Or.inr (Or.inr (Or.inr (Or.inr (Or.inl
          ⟨n + 1, r, ?_, e2, ?_, hr, ?_, ?_, ?_, eB⟩)))))
        · show (if n + 1 < 100 then CasIPC.cas (n + 1) else CasIPC.waitFinal)
            = CasIPC.cas (n + 1)
          rw [if_pos hif]
        · omega
        · omega
        · omega
        · show 2 * (n : Int) = ((n + 1 : Nat) : Int) + (r : Int) - 1
          omega
      · refine Or.inr (Or.inr (Or.inr (Or.inr (Or.inr (Or.inr (Or.inl
          ⟨?_, ?_, ?_, eB⟩))))))
        · show (if n + 1 < 100 then CasIPC.cas (n + 1) else CasIPC.waitFinal)
            = CasIPC.waitFinal
          rw [if_neg hif]
        · have hr99 : r = 99 := by omega
          rw [← hr99]
          exact e2
        · show 2 * (n : Int) = 198
          omega
  | iCasFail n hpc hn hfail => exact hs
  | iWaitFinalExit hpc hexit =>
      rcases hs with ⟨e1, e2, eA, eB⟩ | ⟨e1, e2, eA, eB⟩ | ⟨e1, e2, eA, eB⟩ |
        ⟨e1, e2, eA, eB⟩ | ⟨e1, e2, eA, eB⟩ | ⟨m, r, e1, e2, hm, hr, hrm, hmr, eA, eB⟩ |
        ⟨e1, e2, eA, eB⟩ | ⟨e1, e2, eA, eB⟩ | ⟨e1, e2, eA, eB⟩ <;>
        rw [e1] at hpc <;> cases hpc
      · exfalso
        omega
      · exact Or.inr (Or.inr (Or.inr (Or.inr (Or.inr (Or.inr (Or.inr (Or.inr
          ⟨rfl, e2, eA, eB⟩)))))))
  | rWaitBExit hpc hexit =>
      rcases hs with ⟨e1, e2, eA, eB⟩ | ⟨e1, e2, eA, eB⟩ | ⟨e1, e2, eA, eB⟩ |
        ⟨e1, e2, eA, eB⟩ | ⟨e1, e2, eA, eB⟩ | ⟨m, r, e1, e2, hm, hr, hrm, hmr, eA, eB⟩ |
        ⟨e1, e2, eA, eB⟩ | ⟨e1, e2, eA, eB⟩ | ⟨e1, e2, eA, eB⟩ <;>
        rw [e2] at hpc <;> cases hpc
      · exfalso
        omega
      · exact Or.inr (Or.inr (Or.inl ⟨e1, rfl, eA, eB⟩))
  | rStoreB1 hpc =>
      rcases hs with ⟨e1, e2, eA, eB⟩ | ⟨e1, e2, eA, eB⟩ | ⟨e1, e2, eA, eB⟩ |
        ⟨e1, e2, eA, eB⟩ | ⟨e1, e2, eA, eB⟩ | ⟨m, r, e1, e2, hm, hr, hrm, hmr, eA, eB⟩ |
        ⟨e1, e2, eA, eB⟩ | ⟨e1, e2, eA, eB⟩ | ⟨e1, e2, eA, eB⟩ <;>
        rw [e2] at hpc <;> cases hpc
      exact Or.inr (Or.inr (Or.inr (Or.inl ⟨e1, rfl, eA, rfl⟩)))
  | rCas n hpc hn hsucc =>
      rcases hs with ⟨e1, e2, eA, eB⟩ | ⟨e1, e2, eA, eB⟩ | ⟨e1, e2, eA, eB⟩ |
        ⟨e1, e2, eA, eB⟩ | ⟨e1, e2, eA, eB⟩ | ⟨m, r, e1, e2, hm, hr, hrm, hmr, eA, eB⟩ |
        ⟨e1, e2, eA, eB⟩ | ⟨e1, e2, eA, eB⟩ | ⟨e1, e2, eA, eB⟩ <;>
        rw [e2] at hpc <;> cases hpc
      · exfalso
        omega
      · exfalso
        omega
      · have hmeq : m = n + 1 := by omega
        by_cases hif : n + 1 < 100
        · refine Or.inr (Or.inr (Or.inr (Or.inr (Or.inr (Or.inl
            ⟨m, n + 1, e1, ?_, hm, ?_, ?_, ?_, ?_, eB⟩)))))
          · show (if n + 1 < 100 then CasRPC.cas (n + 1) else CasRPC.done)
              = CasRPC.cas (n + 1)
            rw [if_pos hif]
          · omega
          · omega
          · omega
          · show 2 * (n : Int) + 1 = (m : Int) + ((n + 1 : Nat) : Int) - 1
            omega
        · exfalso
          omega
      · refine Or.inr (Or.inr (Or.inr (Or.inr (Or.inr (Or.inr (Or.inr (Or.inl
          ⟨e1, ?_, ?_, eB⟩)))))))
        · show (if 99 + 1 < 100 then CasRPC.cas (99 + 1) else CasRPC.done)
            = CasRPC.done
          rw [if_neg (by omega)]
        · show 2 * ((99 : Nat) : Int) + 1 = 199
          omega
  | rCasFail n hpc hn hfail => exact hs

lemma casReachable_inv {s : CasState} (hr : CasReachable s) : casInv s := by
  induction hr with
  | init => exact casInit_inv
  | step _ hst ih => exact casStep_inv ih hst

/-- Every transition leaves the shared counter unchanged or advances it
by exactly one. -/
lemma casStep_seq1_change {s t : CasState} (hst : CasStep s t) :
    s.seq1 ≤ t.seq1 ∧ t.seq1 ≤ s.seq1 + 1 := by
  cases hst with
  | iStoreB0 hpc => exact ⟨le_refl _, by show s.seq1 ≤ s.seq1 + 1; omega⟩
  | iWaitBExit hpc hexit => exact ⟨le_refl _, by show s.seq1 ≤ s.seq1 + 1; omega⟩
  | iStoreBneg hpc => exact ⟨le_refl _, by show s.seq1 ≤ s.seq1 + 1; omega⟩
  | iCas n hpc hn hsucc =>
      constructor
      · show s.seq1 ≤ 2 * (n : Int)
        omega
      · show 2 * (n : Int) ≤ s.seq1 + 1
        omega
  | iCasFail n hpc hn hfail => exact ⟨le_refl _, by omega⟩
  | iWaitFinalExit hpc hexit =>
      exact ⟨le_refl _, by show s.seq1 ≤ s.seq1 + 1; omega⟩
  | rWaitBExit hpc hexit => exact ⟨le_refl _, by show s.seq1 ≤ s.seq1 + 1; omega⟩
  | rStoreB1 hpc => exact ⟨le_refl _, by show s.seq1 ≤ s.seq1 + 1; omega⟩
  | rCas n hpc hn hsucc =>
      constructor
      · show s.seq1 ≤ 2 * (n : Int) + 1
        omega
      · show 2 * (n : Int) + 1 ≤ s.seq1 + 1
        omega
  | rCasFail n hpc hn hfail => exact ⟨le_refl _, by omega⟩

lemma casInv_seq1_bounds {s : CasState} (hs : casInv s) :
    -1 ≤ s.seq1 ∧ s.seq1 ≤ 199 := by
  rcases hs with ⟨_, _, eA, _⟩ | ⟨_, _, eA, _⟩ | ⟨_, _, eA, _⟩ | ⟨_, _, eA, _⟩ |
    ⟨_, _, eA, _⟩ | ⟨m, r, _, _, hm, hr, _, _, eA, _⟩ | ⟨_, _, eA, _⟩ |
    ⟨_, _, eA, _⟩ | ⟨_, _, eA, _⟩ <;> omega

lemma casInv_done_seq1 {s : CasState} (hs : casInv s)
    (hd : s.ipc = CasIPC.done) : s.seq1 = 199 := by
  rcases hs with ⟨e1, _, eA, _⟩ | ⟨e1, _, eA, _⟩ | ⟨e1, _, eA, _⟩ | ⟨e1, _, eA, _⟩ |
    ⟨e1, _, eA, _⟩ | ⟨m, r, e1, _, _, _, _, _, eA, _⟩ | ⟨e1, _, eA, _⟩ |
    ⟨e1, _, eA, _⟩ | ⟨e1, _, eA, _⟩ <;> rw [e1] at hd <;> cases hd <;> exact eA

/-- C6: in the CAS protocol, every reachable state of a sample is one of
the transcribed phases — untimed readiness barrier on `seq2`
(store 0 / wait / store 1 / wait / store -1) followed by the alternating
compare-and-exchange phase where the initiator advances `seq1` from
`2n-1` to `2n` and the responder from `2n` to `2n+1`, ending with the
initiator spinning until `seq1 = 199` — and the shared counter advances
monotonically, one at a time, from -1 at the start to 199 when the
initiator finishes. -/
theorem cas_counter_monotone_minus1_to_199 (s : CasState)
    (hr : CasReachable s) :
    casInv s ∧ casInit.seq1 = -1 ∧ (-1 ≤ s.seq1 ∧ s.seq1 ≤ 199) ∧
      (∀ t, CasStep s t → s.seq1 ≤ t.seq1 ∧ t.seq1 ≤ s.seq1 + 1) ∧
      (s.ipc = CasIPC.done → s.seq1 = 199) := by
  have hinv := casReachable_inv hr
  exact ⟨hinv, rfl, casInv_seq1_bounds hinv,
    fun t hst => casStep_seq1_change hst, casInv_done_seq1 hinv⟩

/-- Witness for C6 at the initial state of a sample. -/
theorem cas_counter_monotone_minus1_to_199_witness :
    casInv casInit ∧ casInit.seq1 = -1 ∧
      (-1 ≤ casInit.seq1 ∧ casInit.seq1 ≤ 199) ∧
      (∀ t, CasStep casInit t → casInit.seq1 ≤ t.seq1 ∧ t.seq1 ≤ casInit.seq1 + 1) ∧
      (casInit.ipc = CasIPC.done → casInit.seq1 = 199) :=
  cas_counter_monotone_minus1_to_199 casInit CasReachable.init

/-- In every reachable CAS-protocol state, each of the three spin-waits
can only have its exit condition true once the peer's producing store
has happened: the responder's barrier spin sees `seq2 = 0` only with the
initiator at `waitB`, i.e. just past its store of 0 (src/icl.c line
220); the initiator's barrier spin sees `seq2 ≠ 0` only with the
responder just past its store of 1 (line 82), the observed value being
that 1; and the initiator's final spin sees `seq1 = 199` only with the
responder done, its 100th successful CAS having written 199
(lines 84-90). -/
lemma cas_spins_need_peer {c : CasState} (hc : CasReachable c) :
    (c.rpc = CasRPC.waitB → c.seq2 = 0 → c.ipc = CasIPC.waitB) ∧
    (c.ipc = CasIPC.waitB → c.seq2 ≠ 0 → c.rpc = CasRPC.cas 0 ∧ c.seq2 = 1) ∧
    (c.ipc = CasIPC.waitFinal → c.seq1 = 199 → c.rpc = CasRPC.done) := by
  have hinv := casReachable_inv hc
  refine ⟨?_, ?_, ?_⟩
  · intro hr hB
    rcases hinv with ⟨e1, e2, eA, eB⟩ | ⟨e1, e2, eA, eB⟩ | ⟨e1, e2, eA, eB⟩ |
      ⟨e1, e2, eA, eB⟩ | ⟨e1, e2, eA, eB⟩ | ⟨m, r, e1, e2, hm, hrr, hrm, hmr, eA, eB⟩ |
      ⟨e1, e2, eA, eB⟩ | ⟨e1, e2, eA, eB⟩ | ⟨e1, e2, eA, eB⟩ <;>
      rw [e2] at hr <;> cases hr
    · exfalso
      omega
    · exact e1
  · intro hi hB
    rcases hinv with ⟨e1, e2, eA, eB⟩ | ⟨e1, e2, eA, eB⟩ | ⟨e1, e2, eA, eB⟩ |
      ⟨e1, e2, eA, eB⟩ | ⟨e1, e2, eA, eB⟩ | ⟨m, r, e1, e2, hm, hrr, hrm, hmr, eA, eB⟩ |
      ⟨e1, e2, eA, eB⟩ | ⟨e1, e2, eA, eB⟩ | ⟨e1, e2, eA, eB⟩ <;>
      rw [e1] at hi <;> cases hi
    · exact absurd eB hB
    · exact absurd eB hB
    · exact ⟨e2, eB⟩
  · intro hi hA
    rcases hinv with ⟨e1, e2, eA, eB⟩ | ⟨e1, e2, eA, eB⟩ | ⟨e1, e2, eA, eB⟩ |
      ⟨e1, e2, eA, eB⟩ | ⟨e1, e2, eA, eB⟩ | ⟨m, r, e1, e2, hm, hrr, hrm, hmr, eA, eB⟩ |
      ⟨e1, e2, eA, eB⟩ | ⟨e1, e2, eA, eB⟩ | ⟨e1, e2, eA, eB⟩ <;>
      rw [e1] at hi <;> cases hi
    · exfalso
      omega
    · exact e2

/-- C7: in both hand-off protocols, modeled as two-context step
relations over the shared cells, no spin-wait ever completes by
observing a value before the peer has written it.  Flag-exchange: in
every reachable state, the responder's spin on `seq1 = n` can exit only
after the initiator's store of `n` (its `(n+1)`-th store), and the
initiator's spin on `seq2 = n` only after the responder's store of `n`,
for every step `n`.  CAS protocol: in every reachable state, the
responder's barrier spin on `seq2 = 0` can exit only with the initiator
past its store of 0 (at `waitB`), the initiator's barrier spin on
`seq2 ≠ 0` only with the responder past its store of 1 (the observed
value being that 1), and the initiator's final spin on `seq1 = 199` only
after the responder's last CAS success wrote 199.  Each sample starts
both protocols from freshly reset cells, so this covers every sample. -/
theorem spin_exit_requires_peer_store (s : FlagState) (c : CasState)
    (hs : FlagReachable s) (hc : CasReachable c) :
    ((∀ n : Nat, s.rpc = FlagRPC.wait n → s.seq1 = (n : Int) →
        n < iStores s.ipc) ∧
      (∀ n : Nat, s.ipc = FlagIPC.wait n → s.seq2 = (n : Int) →
        n < rStores s.rpc)) ∧
    ((c.rpc = CasRPC.waitB → c.seq2 = 0 → c.ipc = CasIPC.waitB) ∧
      (c.ipc = CasIPC.waitB → c.seq2 ≠ 0 →
        c.rpc = CasRPC.cas 0 ∧ c.seq2 = 1) ∧
      (c.ipc = CasIPC.waitFinal → c.seq1 = 199 → c.rpc = CasRPC.done)) :=
  ⟨flag_spins_need_peer hs, cas_spins_need_peer hc⟩

/-- Witness for C7 at the initial states of a sample of each protocol. -/
theorem spin_exit_requires_peer_store_witness :
    ((∀ n : Nat, flagInit.rpc = FlagRPC.wait n → flagInit.seq1 = (n : Int) →
        n < iStores flagInit.ipc) ∧
      (∀ n : Nat, flagInit.ipc = FlagIPC.wait n → flagInit.seq2 = (n : Int) →
        n < rStores flagInit.rpc)) ∧
    ((casInit.rpc = CasRPC.waitB → casInit.seq2 = 0 →
        casInit.ipc = CasIPC.waitB) ∧
      (casInit.ipc = CasIPC.waitB → casInit.seq2 ≠ 0 →
        casInit.rpc = CasRPC.cas 0 ∧ casInit.seq2 = 1) ∧
      (casInit.ipc = CasIPC.waitFinal → casInit.seq1 = 199 →
        casInit.rpc = CasRPC.done)) :=
  spin_exit_requires_peer_store flagInit casInit FlagReachable.init
    CasReachable.init

end ICL
